import Mathlib

/-!
Shallow embedding of `pytest/lib/key.py`: the `Key` credential class
(ed25519 test keys for a named account, base58 textual encoding,
JSON-record round trip, deterministic test-only seed derivation).

Python strings are modelled as `List Char` (code points), byte strings as
`List Nat` (each byte `< 256` where relevant).  The external primitives
(the `base58` library and UTF-8 encoding) are embedded concretely; the
ed25519 primitive from PyNaCl (seed -> verify key, seed -> signature) is
an explicit function parameter, as the spec treats it as an external
collaborator.  Fallible Python operations (raising exceptions) are
embedded as `Except PyErr`.
-/

/-- Error categories raised by the embedded code.  Python raises
`KeyError` for a missing dict field (the spec calls it
`MissingFieldError`), `ValueError` from `base58.b58decode` for a
character outside the alphabet (the spec calls it `DecodeError`; a
non-ASCII char raising `UnicodeEncodeError` in `.encode('ascii')` is
folded into the same category), and `ZeroDivisionError` from `32 /
len(seed)` on an empty seed. -/
inductive PyErr where
  | missingFieldError : List Char → PyErr
  | decodeError : PyErr
  | zeroDivisionError : PyErr
deriving DecidableEq

deriving instance DecidableEq for Except

/-- The `Key` class: three string fields. -/
structure Key where
  account_id : List Char
  pk : List Char
  sk : List Char
deriving DecidableEq

/-- UTF-8 encoding of a single code point (what Python `str.encode()`
produces per character). -/
def utf8Char (c : Char) : List Nat :=
  let n := c.toNat
  if n < 0x80 then [n]
  else if n < 0x800 then
    [0xC0 ||| (n >>> 6), 0x80 ||| (n &&& 0x3F)]
  else if n < 0x10000 then
    [0xE0 ||| (n >>> 12), 0x80 ||| ((n >>> 6) &&& 0x3F), 0x80 ||| (n &&& 0x3F)]
  else
    [0xF0 ||| (n >>> 18), 0x80 ||| ((n >>> 12) &&& 0x3F),
     0x80 ||| ((n >>> 6) &&& 0x3F), 0x80 ||| (n &&& 0x3F)]

/-- Python `s.encode()` (UTF-8). -/
def utf8Encode (s : List Char) : List Nat :=
  s.flatMap utf8Char

/-- Python `s * n` for a string and a non-negative count. -/
def pyStrMul (s : List Char) (n : Nat) : List Char :=
  (List.replicate n s).flatten

/-- The Bitcoin base58 alphabet used by the `base58` library. -/
def b58Alphabet : List Char :=
  "123456789ABCDEFGHJKLMNPQRSTUVWXYZabcdefghijkmnopqrstuvwxyz".toList

/-- Digit value to alphabet character (`alphabet[idx]`). -/
def b58Char (d : Nat) : Char := b58Alphabet.getD d '1'

/-- Index of the first occurrence of `c` in a character list. -/
def charIdx (c : Char) : List Char → Option Nat
  | [] => none
  | a :: rest =>
    if a = c then some 0 else (charIdx c rest).map (· + 1)

/-- Character to digit value (`alphabet.index(char)`, `none` when the
character is not in the alphabet). -/
def b58CharVal (c : Char) : Option Nat := charIdx c b58Alphabet

/-- Little-endian base-`b` digits computed with explicit fuel, so that the
definition is structurally recursive and kernel-reducible.  With `fuel ≥ n`
this agrees with `Nat.digits b n` for `2 ≤ b` (proved below). -/
def digitsLEAux (b : Nat) : Nat → Nat → List Nat
  | _, 0 => []
  | 0, _ + 1 => []
  | fuel + 1, n + 1 => (n + 1) % b :: digitsLEAux b fuel ((n + 1) / b)

/-- Little-endian base-`b` digits of `n` (empty for `0`): the digit list
produced by the `while`/`divmod` loops of the `base58` library. -/
def digitsLE (b n : Nat) : List Nat := digitsLEAux b n n

/-- Big-endian minimal byte representation of a natural number
(`bytes(reversed(acc-loop))` in `b58decode`). -/
def natToBytesBE (n : Nat) : List Nat := (digitsLE 256 n).reverse

/-- `b58encode_int` with `default_one=False`: big-endian base58 digit
string of a natural number, empty for `0`. -/
def natToB58 (n : Nat) : List Char := (digitsLE 58 n).reverse.map b58Char

/-- The `base58.b58encode` function: strip leading zero bytes, interpret
the rest as a big-endian integer, write it in base 58, and prepend one
`'1'` per stripped zero byte. -/
def b58encode (v : List Nat) : List Char :=
  let stripped := v.dropWhile (· == 0)
  List.replicate (v.length - stripped.length) '1'
    ++ natToB58 (Nat.ofDigits 256 stripped.reverse)

/-- The digit-decoding loop of `b58decode_int`: fails at the first
character outside the alphabet. -/
def b58DecodeDigits : List Char → Except PyErr (List Nat)
  | [] => .ok []
  | c :: rest =>
    match b58CharVal c with
    | none => .error .decodeError
    | some d =>
      match b58DecodeDigits rest with
      | .error e => .error e
      | .ok ds => .ok (d :: ds)

/-- The `base58.b58decode` function: strip leading `'1'` characters,
decode the rest as a big-endian base-58 integer, write it as a minimal
big-endian byte string, and prepend one zero byte per stripped `'1'`. -/
def b58decode (v : List Char) : Except PyErr (List Nat) :=
  let stripped := v.dropWhile (· == '1')
  match b58DecodeDigits stripped with
  | .error e => .error e
  | .ok ds =>
    .ok (List.replicate (v.length - stripped.length) 0
      ++ natToBytesBE (ds.foldl (fun a d => a * 58 + d) 0))

/-- Python `s.split(':')`. -/
def splitColon : List Char → List (List Char)
  | [] => [[]]
  | c :: rest =>
    if c = ':' then [] :: splitColon rest
    else
      match splitColon rest with
      | [] => [[c]]
      | g :: gs => (c :: g) :: gs

/-- The scheme stripping in `decoded_pk` / `decoded_sk`:
`self.pk.split(':')[1] if ':' in self.pk else self.pk`. -/
def pyStripScheme (s : List Char) : List Char :=
  if ':' ∈ s then (splitColon s).getD 1 [] else s

/-- Python `bytes.hex()`: lowercase hexadecimal digit for a value `< 16`. -/
def hexDigit (n : Nat) : Char := "0123456789abcdef".toList.getD n '0'

/-- Python `bytes.hex()`: two lowercase hex digits per byte. -/
def bytesHex (v : List Nat) : List Char :=
  v.flatMap fun b => [hexDigit (b / 16), hexDigit (b % 16)]

/-- `Key.from_keypair(account_id, key)`: `p = bytes(key.verify_key)`,
`s = bytes(key)` (the seed the `SigningKey` was built from),
`sk = 'ed25519:' + b58encode(s + p)`, `pk = 'ed25519:' + b58encode(p)`.
The PyNaCl seed-to-verify-key function is the explicit parameter `pub`. -/
def Key.from_keypair (pub : List Nat → List Nat) (account_id : List Char)
    (seedBytes : List Nat) : Key :=
  { account_id := account_id
    pk := "ed25519:".toList ++ b58encode (pub seedBytes)
    sk := "ed25519:".toList ++ b58encode (seedBytes ++ pub seedBytes) }

/-- `Key.from_random(account_id)`: the 32 bytes drawn from `os.urandom`
are the explicit argument `entropy`. -/
def Key.from_random (pub : List Nat → List Nat) (account_id : List Char)
    (entropy : List Nat) : Key :=
  Key.from_keypair pub account_id entropy

/-- `Key.implicit_account()`: `account_id = bytes(key.verify_key).hex()`,
then `from_keypair(account_id, key)`. -/
def Key.implicit_account (pub : List Nat → List Nat) (entropy : List Nat) : Key :=
  Key.from_keypair pub (bytesHex (pub entropy)) entropy

/-- A Python `Dict[str, str]` (unique keys; modelled as an association
list queried by first match). -/
def PyDict := List (List Char × List Char)

/-- Python `j[k]` on a string dict: the value at `k`, if present. -/
def dictGet (j : PyDict) (k : List Char) : Option (List Char) :=
  match j with
  | [] => none
  | (k', v) :: rest => if k' = k then some v else dictGet rest k

/-- Python `j[k]`, raising `KeyError` (spec: `MissingFieldError`) when
absent. -/
def pyIndex (j : PyDict) (k : List Char) : Except PyErr (List Char) :=
  match dictGet j k with
  | some v => .ok v
  | none => .error (.missingFieldError k)

/-- `Key.from_json(j)`: `cls(j['account_id'], j['public_key'],
j['secret_key'])`, with the three lookups evaluated in that order. -/
def Key.from_json (j : PyDict) : Except PyErr Key := do
  let a ← pyIndex j "account_id".toList
  let p ← pyIndex j "public_key".toList
  let s ← pyIndex j "secret_key".toList
  return { account_id := a, pk := p, sk := s }

/-- `Key.to_json(self)`: the three-field dict. -/
def Key.to_json (k : Key) : PyDict :=
  [("account_id".toList, k.account_id),
   ("public_key".toList, k.pk),
   ("secret_key".toList, k.sk)]

/-- The `fake_entropy` lambda of `from_seed_testonly` for a non-empty
seed: `(seed * (1 + int(length / len(seed)))).encode()[:length]`. -/
def fakeEntropy (seed : List Char) (length : Nat) : List Nat :=
  (utf8Encode (pyStrMul seed (1 + length / seed.length))).take length

/-- `Key.from_seed_testonly(account_id, seed=None)`: default the seed to
`account_id`, then `from_keypair(account_id, SigningKey(fake_entropy(32)))`.
An empty seed makes `length / len(seed)` raise `ZeroDivisionError`. -/
def Key.from_seed_testonly (pub : List Nat → List Nat) (account_id : List Char)
    (seedOpt : Option (List Char)) : Except PyErr Key :=
  let seed := seedOpt.getD account_id
  if seed.length = 0 then .error .zeroDivisionError
  else .ok (Key.from_keypair pub account_id (fakeEntropy seed 32))

/-- `Key.decoded_pk(self)`: strip the scheme (`split(':')[1]` when a `':'`
is present), ASCII-encode and base58-decode. -/
def Key.decoded_pk (k : Key) : Except PyErr (List Nat) :=
  b58decode (pyStripScheme k.pk)

/-- `Key.decoded_sk(self)`: same logic on the secret-key text. -/
def Key.decoded_sk (k : Key) : Except PyErr (List Nat) :=
  b58decode (pyStripScheme k.sk)

/-- `Key.sign_bytes(self, data)`: `seed = self.decoded_sk()[:32]`, then
`SigningKey(seed).sign(bytes(data)).signature`.  The PyNaCl detached
signing primitive (seed, message) -> signature is the explicit parameter
`edSign`. -/
def Key.sign_bytes (edSign : List Nat → List Nat → List Nat) (k : Key)
    (data : List Nat) : Except PyErr (List Nat) := do
  let sk ← k.decoded_sk
  return edSign (sk.take 32) data

/-- Python `b[-32:]` on a byte string (the whole string when shorter
than 32). -/
def lastBytes (n : Nat) (l : List Nat) : List Nat := l.drop (l.length - n)

theorem digitsLEAux_eq_digits (b : Nat) (hb : 2 ≤ b) :
    ∀ fuel n, n ≤ fuel → digitsLEAux b fuel n = Nat.digits b n := by
  intro fuel
  induction fuel with
  | zero =>
    intro n hn
    have : n = 0 := Nat.le_zero.mp hn
    subst this
    simp [digitsLEAux]
  | succ fuel ih =>
    intro n hn
    match n with
    | 0 => simp [digitsLEAux]
    | n + 1 =>
      have hdiv : (n + 1) / b ≤ fuel := by
        have : (n + 1) / b < n + 1 := Nat.div_lt_self (Nat.succ_pos n) (by omega)
        omega
      rw [show digitsLEAux b (fuel + 1) (n + 1)
            = (n + 1) % b :: digitsLEAux b fuel ((n + 1) / b) from rfl,
        ih _ hdiv, Nat.digits_def' (by omega : 1 < b) (Nat.succ_pos n)]

theorem digitsLE_eq_digits {b : Nat} (hb : 2 ≤ b) (n : Nat) :
    digitsLE b n = Nat.digits b n :=
  digitsLEAux_eq_digits b hb n n le_rfl

theorem b58CharVal_b58Char : ∀ d, d < 58 → b58CharVal (b58Char d) = some d := by
  decide

theorem b58Char_ne_one : ∀ d, d < 58 → d ≠ 0 → b58Char d ≠ '1' := by decide

theorem b58Char_ne_colon : ∀ d, d < 58 → b58Char d ≠ ':' := by decide

theorem char_toNat_lt (c : Char) : c.toNat < 1114112 := by
  rcases c.valid with h | ⟨_, h⟩
  · have h2 := UInt32.toNat_lt_of_lt (n := c.val) (m := 0xd800) (by decide) h
    simp only [Char.toNat]
    omega
  · exact UInt32.toNat_lt_of_lt (by decide) h

theorem utf8Char_ne_nil (c : Char) : utf8Char c ≠ [] := by
  intro h
  simp only [utf8Char] at h
  repeat' split at h
  all_goals simp at h

theorem utf8Char_lt_256 (c : Char) : ∀ b ∈ utf8Char c, b < 256 := by
  have hc := char_toNat_lt c
  intro b hb
  simp only [utf8Char] at hb
  have hor : ∀ x y : Nat, x < 256 → y < 256 → x ||| y < 256 := fun x y hx hy =>
    Nat.or_lt_two_pow (n := 8) hx hy
  have hand : ∀ x : Nat, x &&& 63 < 256 := fun x =>
    Nat.lt_of_le_of_lt (Nat.and_le_right) (by omega)
  have hshift : ∀ x k : Nat, x >>> k = x / 2 ^ k := fun x k =>
    Nat.shiftRight_eq_div_pow x k
  repeat' split at hb
  · simp only [List.mem_cons, List.not_mem_nil, or_false] at hb
    omega
  · simp only [List.mem_cons, List.not_mem_nil, or_false] at hb
    rcases hb with rfl | rfl
    · exact hor _ _ (by omega) (by rw [hshift]; omega)
    · exact hor _ _ (by omega) (hand _)
  · simp only [List.mem_cons, List.not_mem_nil, or_false] at hb
    rcases hb with rfl | rfl | rfl
    · exact hor _ _ (by omega) (by rw [hshift]; omega)
    · exact hor _ _ (by omega) (hand _)
    · exact hor _ _ (by omega) (hand _)
  · simp only [List.mem_cons, List.not_mem_nil, or_false] at hb
    rcases hb with rfl | rfl | rfl | rfl
    · exact hor _ _ (by omega) (by rw [hshift]; omega)
    · exact hor _ _ (by omega) (hand _)
    · exact hor _ _ (by omega) (hand _)
    · exact hor _ _ (by omega) (hand _)

theorem utf8Encode_append (s t : List Char) :
    utf8Encode (s ++ t) = utf8Encode s ++ utf8Encode t := by
  simp [utf8Encode]

theorem length_le_utf8Encode (s : List Char) :
    s.length ≤ (utf8Encode s).length := by
  induction s with
  | nil => simp [utf8Encode]
  | cons c s ih =>
    have h1 : 0 < (utf8Char c).length :=
      List.length_pos.mpr (utf8Char_ne_nil c)
    simp only [utf8Encode, List.flatMap_cons, List.length_append,
      List.length_cons] at *
    omega

theorem utf8Encode_lt_256 (s : List Char) : ∀ b ∈ utf8Encode s, b < 256 := by
  intro b hb
  simp only [utf8Encode, List.mem_flatMap] at hb
  obtain ⟨c, _, hbc⟩ := hb
  exact utf8Char_lt_256 c b hbc

theorem utf8Encode_pyStrMul (s : List Char) (n : Nat) :
    utf8Encode (pyStrMul s n) = (List.replicate n (utf8Encode s)).flatten := by
  induction n with
  | zero => simp [pyStrMul, utf8Encode]
  | succ n ih =>
    simp only [pyStrMul, List.replicate_succ, List.flatten_cons] at *
    rw [utf8Encode_append, ih]

theorem length_flatten_replicate {α : Type} (n : Nat) (l : List α) :
    (List.replicate n l).flatten.length = n * l.length := by
  induction n with
  | zero => simp
  | succ n ih =>
    simp only [List.replicate_succ, List.flatten_cons, List.length_append, ih]
    ring

theorem take_flatten_replicate_le {α : Type} (l : List α) {k n m : Nat}
    (hnm : n ≤ m) (hk : k ≤ n * l.length) :
    (List.replicate m l).flatten.take k = (List.replicate n l).flatten.take k := by
  have hrep : List.replicate m l = List.replicate n l ++ List.replicate (m - n) l := by
    rw [← List.replicate_add]
    congr 1
    omega
  rw [hrep, List.flatten_append, List.take_append_of_le_length]
  rw [length_flatten_replicate]
  exact hk

theorem take_flatten_replicate {α : Type} (l : List α) {k n m : Nat}
    (h1 : k ≤ n * l.length) (h2 : k ≤ m * l.length) :
    (List.replicate n l).flatten.take k = (List.replicate m l).flatten.take k := by
  rcases Nat.le_total n m with h | h
  · rw [take_flatten_replicate_le l h h1]
  · rw [take_flatten_replicate_le l h h2]

theorem foldl58_eq_ofDigits (ds : List Nat) :
    ∀ a, ds.foldl (fun a d => a * 58 + d) a
      = a * 58 ^ ds.length + Nat.ofDigits 58 ds.reverse := by
  induction ds with
  | nil => intro a; simp
  | cons d ds ih =>
    intro a
    rw [List.foldl_cons, ih, List.reverse_cons, Nat.ofDigits_append]
    simp only [Nat.ofDigits_singleton, List.length_reverse, List.length_cons]
    ring

theorem dropWhile_head_false {α : Type} (p : α → Bool) (l : List α) (x : α)
    (xs : List α) (h : l.dropWhile p = x :: xs) : p x = false := by
  induction l with
  | nil => simp [List.dropWhile] at h
  | cons a l ih =>
    rw [List.dropWhile_cons] at h
    by_cases hp : p a = true
    · rw [if_pos hp] at h
      exact ih h
    · rw [if_neg hp] at h
      cases h
      simpa using hp

theorem b58DecodeDigits_map (ds : List Nat) (h : ∀ d ∈ ds, d < 58) :
    b58DecodeDigits (ds.map b58Char) = .ok ds := by
  induction ds with
  | nil => rfl
  | cons d ds ih =>
    have hd := b58CharVal_b58Char d (h d (List.mem_cons_self d ds))
    have hrest := ih (fun x hx => h x (List.mem_cons_of_mem d hx))
    simp [b58DecodeDigits, hd, hrest]

theorem b58DecodeDigits_error_iff (l : List Char) :
    (∃ e, b58DecodeDigits l = .error e) ↔ ∃ c ∈ l, b58CharVal c = none := by
  induction l with
  | nil => simp [b58DecodeDigits]
  | cons c rest ih =>
    simp only [b58DecodeDigits]
    cases hc : b58CharVal c with
    | none =>
      simp only []
      constructor
      · intro _
        exact ⟨c, List.mem_cons_self _ _, hc⟩
      · intro _
        exact ⟨.decodeError, rfl⟩
    | some d =>
      cases hr : b58DecodeDigits rest with
      | error e =>
        simp only []
        constructor
        · intro _
          obtain ⟨c2, hc2, hval⟩ := ih.mp ⟨e, hr⟩
          exact ⟨c2, List.mem_cons_of_mem _ hc2, hval⟩
        · intro _
          exact ⟨e, rfl⟩
      | ok ds =>
        simp only []
        constructor
        · rintro ⟨e, he⟩
          cases he
        · rintro ⟨c2, hmem, hval⟩
          rcases List.mem_cons.mp hmem with rfl | h2
          · rw [hc] at hval
            cases hval
          · obtain ⟨e, he⟩ := ih.mpr ⟨c2, h2, hval⟩
            rw [hr] at he
            cases he

theorem b58DecodeDigits_error_val (l : List Char) (e : PyErr)
    (h : b58DecodeDigits l = .error e) : e = .decodeError := by
  induction l with
  | nil => simp [b58DecodeDigits] at h
  | cons c rest ih =>
    simp only [b58DecodeDigits] at h
    cases hc : b58CharVal c <;> rw [hc] at h
    · cases h
      rfl
    · cases hr : b58DecodeDigits rest <;> rw [hr] at h
      · cases h
        exact ih hr
      · cases h

theorem b58decode_error_iff (v : List Char) :
    (∃ e, b58decode v = .error e) ↔ ∃ c ∈ v, b58CharVal c = none := by
  simp only [b58decode]
  cases hd : b58DecodeDigits (v.dropWhile (· == '1')) with
  | error e =>
    constructor
    · intro _
      obtain ⟨c, hc, hval⟩ := (b58DecodeDigits_error_iff _).mp ⟨e, hd⟩
      exact ⟨c, List.dropWhile_subset _ hc, hval⟩
    · intro _
      exact ⟨e, rfl⟩
  | ok ds =>
    constructor
    · rintro ⟨e, he⟩
      cases he
    · rintro ⟨c, hc, hval⟩
      have h1 : c ≠ '1' := by
        intro h
        subst h
        rw [(by decide : b58CharVal '1' = some 0)] at hval
        cases hval
      have hcd : c ∈ v.dropWhile (· == '1') := by
        have hsp : c ∈ v.takeWhile (· == '1') ∨ c ∈ v.dropWhile (· == '1') := by
          rw [← List.mem_append, List.takeWhile_append_dropWhile]
          exact hc
        rcases hsp with h | h
        · have h2 := List.mem_takeWhile_imp h
          simp only [beq_iff_eq] at h2
          exact absurd h2 h1
        · exact h
      obtain ⟨e, he⟩ := (b58DecodeDigits_error_iff _).mpr ⟨c, hcd, hval⟩
      rw [hd] at he
      cases he

theorem b58decode_error_val (v : List Char) (e : PyErr)
    (h : b58decode v = .error e) : e = .decodeError := by
  simp only [b58decode] at h
  cases hd : b58DecodeDigits (v.dropWhile (· == '1')) <;> rw [hd] at h
  · cases h
    exact b58DecodeDigits_error_val _ _ hd
  · cases h

theorem b58_roundtrip (v : List Nat) (hv : ∀ b ∈ v, b < 256) :
    b58decode (b58encode v) = .ok v := by
  have hb2 : (2 : Nat) ≤ 58 := by norm_num
  have hsplit : v.takeWhile (· == 0) ++ v.dropWhile (· == 0) = v :=
    List.takeWhile_append_dropWhile (· == 0) v
  have htw : v.takeWhile (· == 0)
      = List.replicate (v.takeWhile (· == 0)).length 0 :=
    List.eq_replicate_of_mem fun x hx => by simpa using List.mem_takeWhile_imp hx
  have hzlen : (v.takeWhile (· == 0)).length
      = v.length - (v.dropWhile (· == 0)).length := by
    have h := congrArg List.length hsplit
    simp only [List.length_append] at h
    omega
  rcases hstc : v.dropWhile (· == 0) with _ | ⟨x, xs⟩
  · -- every byte of `v` is zero
    have hvrep : v = List.replicate v.length 0 := by
      conv_lhs => rw [← hsplit]
      rw [hstc, List.append_nil, htw, hzlen, hstc]
      simp
    have henc : b58encode v = List.replicate v.length '1' := by
      simp [b58encode, hstc, natToB58, digitsLE, digitsLEAux]
    rw [henc]
    have hdrop : (List.replicate v.length '1').dropWhile (· == '1') = [] := by
      rw [← List.append_nil (List.replicate v.length '1'),
        List.dropWhile_append_of_pos
          (fun a ha => by simp [List.eq_of_mem_replicate ha])]
      rfl
    simp only [b58decode, hdrop, b58DecodeDigits, List.foldl_nil,
      List.length_replicate, List.length_nil, Nat.sub_zero]
    rw [show natToBytesBE 0 = [] from rfl, List.append_nil]
    exact congrArg Except.ok hvrep.symm
  · -- `x` is the first nonzero byte
    have hxsmem : ∀ b ∈ x :: xs, b < 256 := fun b hb =>
      hv b (List.dropWhile_subset _ (hstc ▸ hb))
    have hx0 : x ≠ 0 := by
      have h := dropWhile_head_false (· == 0) v x xs hstc
      simpa using h
    set N := Nat.ofDigits 256 (x :: xs).reverse with hN
    have hN0 : N ≠ 0 := by
      intro h0
      exact hx0 (Nat.digits_zero_of_eq_zero (by norm_num) h0 x (by simp))
    have hdig256 : Nat.digits 256 N = (x :: xs).reverse := by
      apply Nat.digits_ofDigits 256 (by norm_num)
      · intro l hl
        exact hxsmem l (List.mem_reverse.mp hl)
      · intro hne
        have h1 : (x :: xs).reverse.getLast? = some x := by
          rw [List.reverse_cons, List.getLast?_concat]
        have h2 : (x :: xs).reverse.getLast? = some ((x :: xs).reverse.getLast hne) :=
          List.getLast?_eq_getLast _ hne
        rw [h1] at h2
        rw [← Option.some_inj.mp h2]
        exact hx0
    have hd58ne : Nat.digits 58 N ≠ [] := Nat.digits_ne_nil_iff_ne_zero.mpr hN0
    obtain ⟨d0, ds, hds⟩ : ∃ d0 ds, (Nat.digits 58 N).reverse = d0 :: ds := by
      rcases hrev : (Nat.digits 58 N).reverse with _ | ⟨d0, ds⟩
      · exact absurd (List.reverse_eq_nil_iff.mp hrev) hd58ne
      · exact ⟨d0, ds, rfl⟩
    have hdigits_eq : Nat.digits 58 N = ds.reverse ++ [d0] := by
      have h := congrArg List.reverse hds
      simpa using h
    have hd0ne : d0 ≠ 0 := by
      have h1 : (Nat.digits 58 N).getLast? = some d0 := by
        rw [hdigits_eq, List.getLast?_concat]
      have h2 : (Nat.digits 58 N).getLast? = some ((Nat.digits 58 N).getLast hd58ne) :=
        List.getLast?_eq_getLast _ hd58ne
      have h3 := Nat.getLast_digit_ne_zero 58 hN0
      rw [h2] at h1
      intro h4
      apply h3
      rw [Option.some_inj.mp h1, h4]
    have hallds : ∀ d ∈ d0 :: ds, d < 58 := by
      intro d hd
      exact Nat.digits_lt_base (by norm_num)
        (List.mem_reverse.mp (hds ▸ hd : d ∈ (Nat.digits 58 N).reverse))
    have henc : b58encode v
        = List.replicate (v.length - (x :: xs).length) '1'
          ++ (d0 :: ds).map b58Char := by
      simp only [b58encode, hstc, natToB58, digitsLE_eq_digits hb2, ← hN, hds]
    rw [henc]
    have hdrop : (List.replicate (v.length - (x :: xs).length) '1'
        ++ (d0 :: ds).map b58Char).dropWhile (· == '1')
        = (d0 :: ds).map b58Char := by
      rw [List.dropWhile_append_of_pos
        (fun a ha => by simp [List.eq_of_mem_replicate ha])]
      rw [List.map_cons, List.dropWhile_cons]
      rw [if_neg (by simpa using b58Char_ne_one d0 (hallds d0 (by simp)) hd0ne)]
    have hdec := b58DecodeDigits_map (d0 :: ds) hallds
    simp only [b58decode, hdrop, hdec]
    have hfold : (d0 :: ds).foldl (fun a d => a * 58 + d) 0 = N := by
      rw [foldl58_eq_ofDigits]
      have h5 : (d0 :: ds).reverse = Nat.digits 58 N := by
        rw [← hds, List.reverse_reverse]
      rw [h5, Nat.ofDigits_digits]
      ring
    have hbytes : natToBytesBE N = x :: xs := by
      rw [natToBytesBE, digitsLE_eq_digits (by norm_num), hdig256,
        List.reverse_reverse]
    rw [hfold, hbytes]
    have hlen : (List.replicate (v.length - (x :: xs).length) '1'
          ++ (d0 :: ds).map b58Char).length
        - ((d0 :: ds).map b58Char).length
        = (v.takeWhile (· == 0)).length := by
      simp only [List.length_append, List.length_replicate]
      rw [hzlen, hstc]
      omega
    rw [hlen]
    have hfin : List.replicate (v.takeWhile (· == 0)).length 0 ++ (x :: xs) = v := by
      rw [← htw]
      conv_rhs => rw [← hsplit, hstc]
    exact congrArg Except.ok hfin

theorem splitColon_ne_nil (s : List Char) : splitColon s ≠ [] := by
  cases s with
  | nil => simp [splitColon]
  | cons c rest =>
    simp only [splitColon]
    split
    · simp
    · rcases h : splitColon rest with _ | ⟨g, gs⟩ <;> simp

theorem splitColon_head (s : List Char) :
    ∃ gs, splitColon s = s.takeWhile (fun c => !(c == ':')) :: gs := by
  induction s with
  | nil => exact ⟨[], rfl⟩
  | cons c rest ih =>
    by_cases hc : c = ':'
    · subst hc
      exact ⟨splitColon rest, by simp [splitColon, List.takeWhile_cons]⟩
    · obtain ⟨gs0, hgs⟩ := ih
      exact ⟨gs0, by simp [splitColon, hc, hgs, List.takeWhile_cons]⟩

theorem splitColon_getD_one (pre s : List Char) (hpre : ':' ∉ pre) :
    (splitColon (pre ++ ':' :: s)).getD 1 []
      = s.takeWhile (fun c => !(c == ':')) := by
  induction pre with
  | nil =>
    obtain ⟨gs, hgs⟩ := splitColon_head s
    simp [splitColon, hgs]
  | cons c pre ih =>
    have hc : ¬(c = ':') := fun h => hpre (by rw [h]; exact List.mem_cons_self _ _)
    have hpre2 : ':' ∉ pre := fun h => hpre (List.mem_cons_of_mem _ h)
    rcases h : splitColon (pre ++ ':' :: s) with _ | ⟨g, gs⟩
    · exact absurd h (splitColon_ne_nil _)
    · have h2 := ih hpre2
      rw [h] at h2
      simp only [List.cons_append, splitColon, if_neg hc, List.append_eq]
      rw [h]
      simpa using h2

theorem takeWhile_ne_colon (s : List Char) (h : ':' ∉ s) :
    s.takeWhile (fun c => !(c == ':')) = s := by
  induction s with
  | nil => rfl
  | cons c rest ih =>
    have hc : ¬(c = ':') := fun hh => h (by rw [hh]; exact List.mem_cons_self _ _)
    have h2 : ':' ∉ rest := fun hh => h (List.mem_cons_of_mem _ hh)
    simp [List.takeWhile_cons, hc, ih h2]

theorem pyStripScheme_no_colon (s : List Char) (h : ':' ∉ s) :
    pyStripScheme s = s := by
  simp [pyStripScheme, h]

theorem pyStripScheme_prefixed (pre s : List Char) (hpre : ':' ∉ pre) :
    pyStripScheme (pre ++ ':' :: s) = s.takeWhile (fun c => !(c == ':')) := by
  have hmem : ':' ∈ pre ++ ':' :: s :=
    List.mem_append_right _ (List.mem_cons_self _ _)
  rw [pyStripScheme, if_pos hmem]
  exact splitColon_getD_one pre s hpre

theorem colon_not_mem_b58encode (v : List Nat) : ':' ∉ b58encode v := by
  intro h
  simp only [b58encode, List.mem_append] at h
  rcases h with h | h
  · have h2 := List.eq_of_mem_replicate h
    exact absurd h2 (by decide)
  · simp only [natToB58, List.mem_map] at h
    obtain ⟨d, hd, hcd⟩ := h
    have hd58 : d < 58 := by
      rw [digitsLE_eq_digits (by norm_num : (2:Nat) ≤ 58)] at hd
      exact Nat.digits_lt_base (by norm_num) (List.mem_reverse.mp hd)
    exact b58Char_ne_colon d hd58 hcd

theorem schemeAppend (e : List Char) :
    "ed25519:".toList ++ e = "ed25519".toList ++ ':' :: e := rfl

theorem decoded_pk_from_keypair (pub : List Nat → List Nat) (a : List Char)
    (sb : List Nat) (hb : ∀ x ∈ pub sb, x < 256) :
    (Key.from_keypair pub a sb).decoded_pk = .ok (pub sb) := by
  show b58decode (pyStripScheme ("ed25519:".toList ++ b58encode (pub sb))) = _
  rw [schemeAppend, pyStripScheme_prefixed _ _ (by decide),
    takeWhile_ne_colon _ (colon_not_mem_b58encode _), b58_roundtrip _ hb]

theorem decoded_sk_from_keypair (pub : List Nat → List Nat) (a : List Char)
    (sb : List Nat) (hsb : ∀ x ∈ sb, x < 256) (hpb : ∀ x ∈ pub sb, x < 256) :
    (Key.from_keypair pub a sb).decoded_sk = .ok (sb ++ pub sb) := by
  show b58decode (pyStripScheme ("ed25519:".toList ++ b58encode (sb ++ pub sb))) = _
  have hall : ∀ x ∈ sb ++ pub sb, x < 256 := by
    intro x hx
    rcases List.mem_append.mp hx with h | h
    exacts [hsb x h, hpb x h]
  rw [schemeAppend, pyStripScheme_prefixed _ _ (by decide),
    takeWhile_ne_colon _ (colon_not_mem_b58encode _), b58_roundtrip _ hall]

theorem hexDigit_mem_of_lt : ∀ n, n < 16 → hexDigit n ∈ "0123456789abcdef".toList := by
  decide

theorem length_bytesHex (v : List Nat) : (bytesHex v).length = 2 * v.length := by
  induction v with
  | nil => simp [bytesHex]
  | cons b v ih =>
    simp only [bytesHex, List.flatMap_cons, List.length_append, List.length_cons,
      List.length_nil, List.length_cons] at *
    omega

theorem mem_bytesHex_lower (v : List Nat) (hv : ∀ b ∈ v, b < 256) :
    ∀ c ∈ bytesHex v, c ∈ "0123456789abcdef".toList := by
  intro c hc
  simp only [bytesHex, List.mem_flatMap] at hc
  obtain ⟨b, hb, hcb⟩ := hc
  simp only [List.mem_cons, List.not_mem_nil, or_false] at hcb
  rcases hcb with rfl | rfl
  · exact hexDigit_mem_of_lt _ (by have := hv b hb; omega)
  · exact hexDigit_mem_of_lt _ (Nat.mod_lt _ (by omega))

/-- C1: for every non-empty seed string, `fake_entropy(32)` in
`from_seed_testonly` produces exactly 32 bytes, equal to the first 32
bytes of the UTF-8 encoding of the seed repeated end-to-end; the
repetition count `1 + 32 / len(seed)` used by the code yields at least 32
bytes before truncation, and UTF-8-encoding the repeated string equals
repeating the UTF-8 bytes. -/
theorem fake_entropy_spec (seed : List Char) (h : seed ≠ []) :
    (fakeEntropy seed 32).length = 32 ∧
    fakeEntropy seed 32 = (List.replicate 32 (utf8Encode seed)).flatten.take 32 ∧
    32 ≤ (utf8Encode (pyStrMul seed (1 + 32 / seed.length))).length ∧
    ∀ n, utf8Encode (pyStrMul seed n) = (List.replicate n (utf8Encode seed)).flatten := by
  have hL : 1 ≤ seed.length := List.length_pos.mpr h
  have hB : seed.length ≤ (utf8Encode seed).length := length_le_utf8Encode seed
  have hdm := Nat.div_add_mod 32 seed.length
  have hmlt : 32 % seed.length < seed.length := Nat.mod_lt _ (by omega)
  have hprod : (1 + 32 / seed.length) * seed.length
      = seed.length + seed.length * (32 / seed.length) := by ring
  have hcount : 33 ≤ (1 + 32 / seed.length) * seed.length := by omega
  have hmono : (1 + 32 / seed.length) * seed.length
      ≤ (1 + 32 / seed.length) * (utf8Encode seed).length :=
    Nat.mul_le_mul_left _ hB
  have hE : 32 ≤ (1 + 32 / seed.length) * (utf8Encode seed).length := by omega
  have hlen32 : 32 ≤ (utf8Encode (pyStrMul seed (1 + 32 / seed.length))).length := by
    rw [utf8Encode_pyStrMul, length_flatten_replicate]
    exact hE
  refine ⟨?_, ?_, hlen32, fun n => utf8Encode_pyStrMul seed n⟩
  · simp only [fakeEntropy, List.length_take]
    omega
  · simp only [fakeEntropy, utf8Encode_pyStrMul]
    apply take_flatten_replicate
    · rw [← length_flatten_replicate]
      rw [← utf8Encode_pyStrMul]
      exact hlen32
    · have h1 : 32 * 1 ≤ 32 * (utf8Encode seed).length :=
        Nat.mul_le_mul_left 32 (by omega)
      omega

/-- C1 witness: the theorem instantiated at the seed `"ab"`. -/
theorem fake_entropy_spec_witness :
    (fakeEntropy "ab".toList 32).length = 32 ∧
    fakeEntropy "ab".toList 32
      = (List.replicate 32 (utf8Encode "ab".toList)).flatten.take 32 ∧
    32 ≤ (utf8Encode (pyStrMul "ab".toList (1 + 32 / ("ab".toList).length))).length ∧
    ∀ n, utf8Encode (pyStrMul "ab".toList n)
      = (List.replicate n (utf8Encode "ab".toList)).flatten :=
  fake_entropy_spec "ab".toList (by decide)

/-- C2: `from_json (to_json c) = c` for every credential `c`: the JSON
record round trip restores all three string fields. -/
theorem from_json_to_json (k : Key) : Key.from_json (Key.to_json k) = .ok k := rfl

/-- C3 counterexample: `from_json` is one of the listed construction
operations, yet it performs no validation, so it accepts a record whose
secret key (`"ed25519:3"`, decoding to the single byte 2) is unrelated to
its public key (`"ed25519:2"`, decoding to the single byte 1); the last
32 bytes of the decoded secret key differ from the decoded public key. -/
theorem from_json_key_consistency_cex :
    Key.from_json [("account_id".toList, "a".toList),
        ("public_key".toList, "ed25519:2".toList),
        ("secret_key".toList, "ed25519:3".toList)]
      = .ok ⟨"a".toList, "ed25519:2".toList, "ed25519:3".toList⟩ ∧
    Key.decoded_sk ⟨"a".toList, "ed25519:2".toList, "ed25519:3".toList⟩
      = .ok [2] ∧
    Key.decoded_pk ⟨"a".toList, "ed25519:2".toList, "ed25519:3".toList⟩
      = .ok [1] ∧
    lastBytes 32 [2] ≠ [1] := by decide

/-- C3 (amended): every credential built through the common derivation
routine `from_keypair` — hence by `from_random`, `implicit_account`, and
`from_seed_testonly`, which all reduce to it as the accompanying
equations show — satisfies the key-consistency invariant: the last 32
bytes of the decoded secret key equal the decoded public key.
`from_json` / `from_json_file` perform no such validation. -/
theorem key_consistency_from_keypair (pub : List Nat → List Nat) (a : List Char)
    (sb : List Nat) (hsb : ∀ x ∈ sb, x < 256) (hpb : ∀ x ∈ pub sb, x < 256)
    (hplen : (pub sb).length = 32) :
    (∃ skB pkB, (Key.from_keypair pub a sb).decoded_sk = .ok skB ∧
      (Key.from_keypair pub a sb).decoded_pk = .ok pkB ∧
      lastBytes 32 skB = pkB) ∧
    Key.from_random pub a sb = Key.from_keypair pub a sb ∧
    Key.implicit_account pub sb = Key.from_keypair pub (bytesHex (pub sb)) sb ∧
    ∀ seed : List Char, seed ≠ [] →
      Key.from_seed_testonly pub a (some seed)
        = .ok (Key.from_keypair pub a (fakeEntropy seed 32)) := by
  refine ⟨⟨sb ++ pub sb, pub sb, decoded_sk_from_keypair pub a sb hsb hpb,
    decoded_pk_from_keypair pub a sb hpb, ?_⟩, rfl, rfl, ?_⟩
  · rw [lastBytes]
    have hl : (sb ++ pub sb).length - 32 = sb.length := by
      simp [List.length_append, hplen]
    rw [hl, List.drop_left]
  · intro seed hs
    simp [Key.from_seed_testonly, List.length_eq_zero, hs]

/-- C3 witness: the amended theorem instantiated at a concrete public-key
function and seed bytes. -/
theorem key_consistency_from_keypair_witness :
    (∃ skB pkB,
      (Key.from_keypair (fun _ => List.replicate 32 7) "a".toList [1, 2]).decoded_sk
        = .ok skB ∧
      (Key.from_keypair (fun _ => List.replicate 32 7) "a".toList [1, 2]).decoded_pk
        = .ok pkB ∧
      lastBytes 32 skB = pkB) ∧
    Key.from_random (fun _ => List.replicate 32 7) "a".toList [1, 2]
      = Key.from_keypair (fun _ => List.replicate 32 7) "a".toList [1, 2] ∧
    Key.implicit_account (fun _ => List.replicate 32 7) [1, 2]
      = Key.from_keypair (fun _ => List.replicate 32 7)
          (bytesHex ((fun _ => List.replicate 32 7) [1, 2])) [1, 2] ∧
    ∀ seed : List Char, seed ≠ [] →
      Key.from_seed_testonly (fun _ => List.replicate 32 7) "a".toList (some seed)
        = .ok (Key.from_keypair (fun _ => List.replicate 32 7) "a".toList
            (fakeEntropy seed 32)) :=
  key_consistency_from_keypair (fun _ => List.replicate 32 7) "a".toList [1, 2]
    (by decide) (by decide) (by decide)

/-- C4 counterexample: `decoded_pk` performs no length check: on the
stored text `"ed25519:2"` it succeeds with the single byte `[1]`, a byte
string whose length differs from 32, where the claim requires a
`DecodeError`. -/
theorem decoded_pk_no_length_check_cex :
    Key.decoded_pk ⟨"a".toList, "ed25519:2".toList, "s".toList⟩ = .ok [1] ∧
    ([1] : List Nat).length ≠ 32 := by decide

/-- C4 (amended): `decoded_pk` fails — always with a `DecodeError` — if
and only if the stored textual payload after prefix stripping is not
valid base58 (contains a character outside the alphabet); no length
validation is performed, so a successful decode may have any length. -/
theorem decoded_pk_error_spec (k : Key) :
    ((∃ e, k.decoded_pk = .error e)
      ↔ ∃ c ∈ pyStripScheme k.pk, b58CharVal c = none) ∧
    ∀ e, k.decoded_pk = .error e → e = .decodeError := by
  exact ⟨b58decode_error_iff (pyStripScheme k.pk),
    fun e he => b58decode_error_val _ e he⟩

/-- C4 witness: the amended theorem instantiated at a key whose stored
public-key text `"ed25519:0"` has an invalid base58 payload. -/
theorem decoded_pk_error_spec_witness :
    Key.decoded_pk ⟨"a".toList, "ed25519:0".toList, "s".toList⟩
      = .error .decodeError := by
  obtain ⟨e, he⟩ :=
    (decoded_pk_error_spec ⟨"a".toList, "ed25519:0".toList, "s".toList⟩).1.mpr
      ⟨'0', by decide, by decide⟩
  rw [he,
    (decoded_pk_error_spec ⟨"a".toList, "ed25519:0".toList, "s".toList⟩).2 e he]

/-- C5 counterexample: on the stored text `"a:22:33"` the accessor
decodes only the segment `"22"` between the first and second colon
(succeeding with `[59]`), while the claim's "entire remainder" `"22:33"`
is not valid base58 and would have to fail. -/
theorem decoded_pk_second_segment_cex :
    Key.decoded_pk ⟨"a".toList, "a:22:33".toList, "s".toList⟩ = .ok [59] ∧
    b58decode "22:33".toList = .error .decodeError := by decide

/-- C5 (amended): when the stored text contains a `':'`, the accessor
decodes the segment strictly between the first and the second `':'` (the
entire remainder when there is no second `':'`); with no `':'` it decodes
the whole text.  Hence prefix tolerance holds: for a payload with no
`':'`, the decoded bytes are the same with or without a `"<scheme>:"`
prefix — but with a second `':'` present only the segment before it is
decoded, not the entire remainder. -/
theorem decoded_pk_strip_spec (a sk2 pre t : List Char)
    (hpre : ':' ∉ pre) (ht : ':' ∉ t) :
    Key.decoded_pk ⟨a, pre ++ ':' :: t, sk2⟩ = b58decode t ∧
    Key.decoded_pk ⟨a, t, sk2⟩ = b58decode t ∧
    ∀ rest, Key.decoded_pk ⟨a, pre ++ ':' :: (t ++ ':' :: rest), sk2⟩
      = b58decode t := by
  refine ⟨?_, ?_, ?_⟩
  · show b58decode (pyStripScheme (pre ++ ':' :: t)) = _
    rw [pyStripScheme_prefixed _ _ hpre, takeWhile_ne_colon _ ht]
  · show b58decode (pyStripScheme t) = _
    rw [pyStripScheme_no_colon _ ht]
  · intro rest
    show b58decode (pyStripScheme (pre ++ ':' :: (t ++ ':' :: rest))) = _
    rw [pyStripScheme_prefixed _ _ hpre]
    congr 1
    rw [List.takeWhile_append_of_pos (by
      intro c hc
      simp only [Bool.not_eq_true', beq_eq_false_iff_ne, ne_eq]
      intro hcc
      exact ht (hcc ▸ hc))]
    rw [show (':' :: rest).takeWhile (fun c => !(c == ':')) = [] from by
      simp [List.takeWhile_cons]]
    exact List.append_nil t

/-- C5 witness: the amended theorem instantiated at the scheme text
`"ed25519"` and payload `"2"`. -/
theorem decoded_pk_strip_spec_witness :
    Key.decoded_pk ⟨"a".toList, "ed25519".toList ++ ':' :: "2".toList, "s".toList⟩
      = b58decode "2".toList ∧
    Key.decoded_pk ⟨"a".toList, "2".toList, "s".toList⟩ = b58decode "2".toList ∧
    ∀ rest, Key.decoded_pk
        ⟨"a".toList, "ed25519".toList ++ ':' :: ("2".toList ++ ':' :: rest), "s".toList⟩
      = b58decode "2".toList :=
  decoded_pk_strip_spec "a".toList "s".toList "ed25519".toList "2".toList
    (by decide) (by decide)

/-- C6: `from_keypair` stores the secret key as `"ed25519:"` plus the
base58 encoding of the 32-byte seed concatenated with the public key,
and the public key as `"ed25519:"` plus the base58 encoding of the raw
public-key bytes — so both output textual forms carry the `"ed25519:"`
prefix, and the decoded secret-key bytes are `seed ++ public_key`. -/
theorem from_keypair_encoding (pub : List Nat → List Nat) (a : List Char)
    (sb : List Nat) (hsb : ∀ x ∈ sb, x < 256) (hpb : ∀ x ∈ pub sb, x < 256) :
    (Key.from_keypair pub a sb).sk
      = "ed25519:".toList ++ b58encode (sb ++ pub sb) ∧
    (Key.from_keypair pub a sb).pk = "ed25519:".toList ++ b58encode (pub sb) ∧
    (Key.from_keypair pub a sb).account_id = a ∧
    (Key.from_keypair pub a sb).decoded_sk = .ok (sb ++ pub sb) ∧
    (Key.from_keypair pub a sb).decoded_pk = .ok (pub sb) :=
  ⟨rfl, rfl, rfl, decoded_sk_from_keypair pub a sb hsb hpb,
    decoded_pk_from_keypair pub a sb hpb⟩

/-- C6 witness: the theorem instantiated at a concrete public-key
function and seed bytes. -/
theorem from_keypair_encoding_witness :
    (Key.from_keypair (fun _ => [3]) "a".toList [0, 7]).sk
      = "ed25519:".toList ++ b58encode ([0, 7] ++ [3]) ∧
    (Key.from_keypair (fun _ => [3]) "a".toList [0, 7]).pk
      = "ed25519:".toList ++ b58encode [3] ∧
    (Key.from_keypair (fun _ => [3]) "a".toList [0, 7]).account_id = "a".toList ∧
    (Key.from_keypair (fun _ => [3]) "a".toList [0, 7]).decoded_sk
      = .ok ([0, 7] ++ [3]) ∧
    (Key.from_keypair (fun _ => [3]) "a".toList [0, 7]).decoded_pk = .ok [3] :=
  from_keypair_encoding (fun _ => [3]) "a".toList [0, 7] (by decide) (by decide)

/-- C7: `sign_bytes` is a pure deterministic function of the stored
secret-key text and the message: on a credential whose secret key decodes
successfully it returns the ed25519 signature computed from the first 32
bytes of the decoded secret key, any credential with the same secret-key
text signs identically, and (given the ed25519 primitive's 64-byte output)
every returned signature has 64 bytes.  No field of the credential is
modified — the embedding is a pure function of the `Key` value. -/
theorem sign_bytes_spec (edSign : List Nat → List Nat → List Nat)
    (hsig : ∀ s m, (edSign s m).length = 64) (k k2 : Key) (hsk : k2.sk = k.sk)
    (data s : List Nat) (hdec : k.decoded_sk = .ok s) :
    k.sign_bytes edSign data = .ok (edSign (s.take 32) data) ∧
    k2.sign_bytes edSign data = k.sign_bytes edSign data ∧
    ∀ r, k.sign_bytes edSign data = .ok r → r.length = 64 := by
  have h1 : k.sign_bytes edSign data = .ok (edSign (s.take 32) data) := by
    simp [Key.sign_bytes, hdec]
  refine ⟨h1, ?_, ?_⟩
  · have h2 : k2.decoded_sk = k.decoded_sk := by
      simp [Key.decoded_sk, hsk]
    simp [Key.sign_bytes, h2]
  · intro r hr
    rw [h1] at hr
    cases hr
    exact hsig _ _

/-- C7 witness: the theorem instantiated at a constant signing primitive
and two credentials sharing the secret-key text `"ed25519:2"`. -/
theorem sign_bytes_spec_witness :
    Key.sign_bytes (fun _ _ => List.replicate 64 0)
        ⟨"a".toList, "p".toList, "ed25519:2".toList⟩ [5, 6]
      = .ok ((fun _ _ => List.replicate 64 0) (([1] : List Nat).take 32) [5, 6]) ∧
    Key.sign_bytes (fun _ _ => List.replicate 64 0)
        ⟨"b".toList, "q".toList, "ed25519:2".toList⟩ [5, 6]
      = Key.sign_bytes (fun _ _ => List.replicate 64 0)
          ⟨"a".toList, "p".toList, "ed25519:2".toList⟩ [5, 6] ∧
    ∀ r, Key.sign_bytes (fun _ _ => List.replicate 64 0)
        ⟨"a".toList, "p".toList, "ed25519:2".toList⟩ [5, 6] = .ok r →
      r.length = 64 :=
  sign_bytes_spec (fun _ _ => List.replicate 64 0) (fun _ _ => by simp)
    ⟨"a".toList, "p".toList, "ed25519:2".toList⟩
    ⟨"b".toList, "q".toList, "ed25519:2".toList⟩
    rfl [5, 6] [1] (by decide)

/-- C8: an implicit-account credential's `account_id` is the lowercase
hexadecimal encoding of its decoded public key, a 64-character string
over the lowercase hex alphabet (given that the ed25519 primitive
produces 32 bytes). -/
theorem implicit_account_hex (pub : List Nat → List Nat) (entropy : List Nat)
    (hlen : (pub entropy).length = 32) (hb : ∀ x ∈ pub entropy, x < 256) :
    (Key.implicit_account pub entropy).decoded_pk = .ok (pub entropy) ∧
    (Key.implicit_account pub entropy).account_id = bytesHex (pub entropy) ∧
    (Key.implicit_account pub entropy).account_id.length = 64 ∧
    ∀ c ∈ (Key.implicit_account pub entropy).account_id,
      c ∈ "0123456789abcdef".toList := by
  refine ⟨decoded_pk_from_keypair pub _ entropy hb, rfl, ?_, ?_⟩
  · show (bytesHex (pub entropy)).length = 64
    rw [length_bytesHex, hlen]
  · show ∀ c ∈ bytesHex (pub entropy), c ∈ "0123456789abcdef".toList
    exact mem_bytesHex_lower _ hb

/-- C8 witness: the theorem instantiated at a constant 32-byte public
key. -/
theorem implicit_account_hex_witness :
    (Key.implicit_account (fun _ => List.replicate 32 171) []).decoded_pk
      = .ok ((fun _ => List.replicate 32 171) ([] : List Nat)) ∧
    (Key.implicit_account (fun _ => List.replicate 32 171) []).account_id
      = bytesHex ((fun _ => List.replicate 32 171) ([] : List Nat)) ∧
    (Key.implicit_account (fun _ => List.replicate 32 171) []).account_id.length
      = 64 ∧
    ∀ c ∈ (Key.implicit_account (fun _ => List.replicate 32 171) []).account_id,
      c ∈ "0123456789abcdef".toList :=
  implicit_account_hex (fun _ => List.replicate 32 171) [] (by decide) (by decide)

/-- C9: `from_json` fails with a `MissingFieldError` whenever any of the
three keys `account_id`, `public_key`, `secret_key` is absent, and its
result depends only on the three lookups — the field values are not
inspected or decoded, and extra keys are ignored. -/
theorem from_json_fields (j : PyDict) :
    ((dictGet j "account_id".toList = none ∨ dictGet j "public_key".toList = none
        ∨ dictGet j "secret_key".toList = none) →
      ∃ f, Key.from_json j = .error (.missingFieldError f)) ∧
    ∀ j2 : PyDict,
      dictGet j2 "account_id".toList = dictGet j "account_id".toList →
      dictGet j2 "public_key".toList = dictGet j "public_key".toList →
      dictGet j2 "secret_key".toList = dictGet j "secret_key".toList →
      Key.from_json j2 = Key.from_json j := by
  constructor
  · intro h
    rcases ha : dictGet j "account_id".toList with _ | va
    · exact ⟨"account_id".toList,
        by simp only [Key.from_json, pyIndex, ha]; rfl⟩
    rcases hp : dictGet j "public_key".toList with _ | vp
    · exact ⟨"public_key".toList,
        by simp only [Key.from_json, pyIndex, ha, hp]; rfl⟩
    rcases hs : dictGet j "secret_key".toList with _ | vs
    · exact ⟨"secret_key".toList,
        by simp only [Key.from_json, pyIndex, ha, hp, hs]; rfl⟩
    · rcases h with h | h | h
      · rw [ha] at h
        cases h
      · rw [hp] at h
        cases h
      · rw [hs] at h
        cases h
  · intro j2 h1 h2 h3
    simp only [Key.from_json, pyIndex, h1, h2, h3]

/-- C9 witness: the theorem instantiated at the spec's missing-field
record (no `secret_key`) and at the same record extended with an ignored
extra key. -/
theorem from_json_fields_witness :
    (∃ f, Key.from_json [("account_id".toList, "a".toList),
        ("public_key".toList, "ed25519:xyz".toList)]
      = .error (.missingFieldError f)) ∧
    Key.from_json [("account_id".toList, "a".toList),
        ("public_key".toList, "ed25519:xyz".toList),
        ("extra".toList, "x".toList)]
      = Key.from_json [("account_id".toList, "a".toList),
          ("public_key".toList, "ed25519:xyz".toList)] :=
  ⟨(from_json_fields [("account_id".toList, "a".toList),
      ("public_key".toList, "ed25519:xyz".toList)]).1 (by decide),
    (from_json_fields [("account_id".toList, "a".toList),
      ("public_key".toList, "ed25519:xyz".toList)]).2
      [("account_id".toList, "a".toList),
        ("public_key".toList, "ed25519:xyz".toList),
        ("extra".toList, "x".toList)] (by decide) (by decide) (by decide)⟩

/-- C10: `from_seed_testonly` raises `ZeroDivisionError` on an empty
seed — both for an explicitly empty seed and for an empty `account_id`
with the seed argument omitted (defaulting the seed to the account id) —
and returns a credential for every non-empty seed. -/
theorem from_seed_empty_seed (pub : List Nat → List Nat) (a : List Char) :
    Key.from_seed_testonly pub [] none = .error .zeroDivisionError ∧
    Key.from_seed_testonly pub a (some []) = .error .zeroDivisionError ∧
    ∀ s : List Char, s ≠ [] →
      ∃ k, Key.from_seed_testonly pub a (some s) = .ok k := by
  refine ⟨rfl, rfl, ?_⟩
  intro s hs
  exact ⟨Key.from_keypair pub a (fakeEntropy s 32),
    by simp [Key.from_seed_testonly, List.length_eq_zero, hs]⟩

/-- C10 witness: the theorem instantiated at a concrete public-key
function, account id, and non-empty seed. -/
theorem from_seed_empty_seed_witness :
    Key.from_seed_testonly (fun _ => []) [] none = .error .zeroDivisionError ∧
    (∃ k, Key.from_seed_testonly (fun _ => []) "a".toList (some "b".toList)
      = .ok k) :=
  ⟨(from_seed_empty_seed (fun _ => []) "a".toList).1,
    (from_seed_empty_seed (fun _ => []) "a".toList).2.2 "b".toList (by decide)⟩
